import Mathlib

/-!
Verification of the pointers / send-and-sync toolkit.

Shallow embedding of:
- `src/pointers/src/cell.rs`     (`MyCell`)
- `src/pointers/src/refcell.rs`  (`MyRefCell`, `RefState`, `Ref`, `RefMut`)
- `src/pointers/src/rc.rs`       (`MyRc`, `RcInner`)
- `src/send-and-sync/src/sync.rs` (`MyCounter`)

Machine integers are modelled as `Nat` (for `usize`) and `Int` (for `i32`)
with explicit reduction modulo `2 ^ 64` resp. `2 ^ 32` wherever the Rust
source performs unchecked arithmetic (release-mode wrapping semantics).
-/

/-- `usize::MAX + 1`: the modulus of Rust's 64-bit `usize` arithmetic. -/
def USIZE : Nat := 2 ^ 64

/-- Two's-complement wrap of an unbounded integer into the `i32` range,
matching Rust's release-mode wrapping semantics for `i32` addition. -/
def wrap32 (x : Int) : Int := (x + 2 ^ 31) % 2 ^ 32 - 2 ^ 31

lemma wrap32_wrap_add (x y : Int) : wrap32 (wrap32 x + y) = wrap32 (x + y) := by
  unfold wrap32; omega

lemma wrap32_eq_self (x : Int) (h1 : -(2 ^ 31) ≤ x) (h2 : x ≤ 2 ^ 31 - 1) :
    wrap32 x = x := by
  unfold wrap32; omega

/-! ## `MyCell` (src/pointers/src/cell.rs)

`MyCell<T>` stores one value behind an `UnsafeCell`; `set` overwrites it
wholesale and `get` copies it out.  The observable state is exactly the
stored value, so the cell is embedded as that value. -/

namespace MyCell

/-- `MyCell::new(value)`: the freshly constructed cell stores `value`. -/
def new {T : Type} (value : T) : T := value

/-- `MyCell::set(&self, value)`: unconditionally overwrite the stored value. -/
def set {T : Type} (_cell : T) (value : T) : T := value

/-- `MyCell::get(&self)`: copy the stored value out. -/
def get {T : Type} (cell : T) : T := cell

end MyCell

/-- One operation of a client program against a `MyCell`. -/
inductive CellOp (T : Type) where
  | set (v : T)
  | get
deriving DecidableEq

/-- Run a sequence of operations against a cell, returning the final stored
value.  `get` does not change the cell. -/
def runCell {T : Type} : T → List (CellOp T) → T
  | cell, [] => cell
  | cell, CellOp.set v :: rest => runCell (MyCell.set cell v) rest
  | cell, CellOp.get :: rest => runCell cell rest

/-- The value passed to the most recent (= last in chronological order)
`set` of the sequence, if any. -/
def lastSet {T : Type} : List (CellOp T) → Option T
  | [] => none
  | CellOp.set v :: rest => some ((lastSet rest).getD v)
  | CellOp.get :: rest => lastSet rest

/-! ## `MyRefCell` (src/pointers/src/refcell.rs) -/

/-- The borrow-state machine of `MyRefCell` (`enum RefState`). -/
inductive RefState where
  | Unshared
  | Shared (count : Nat)
  | Exclusive
deriving DecidableEq, Repr

namespace MyRefCell

/-- `MyRefCell::borrow`: returns the successor state when a read handle is
issued (`Some(Ref { .. })` in the source), `none` when no handle is issued.
The `Shared` arm computes `count + 1` in `usize` arithmetic. -/
def borrow : RefState → Option RefState
  | RefState.Unshared => some (RefState.Shared 1)
  | RefState.Shared count => some (RefState.Shared ((count + 1) % USIZE))
  | RefState.Exclusive => none

/-- `MyRefCell::borrow_mut`: succeeds only from `Unshared`, transitioning to
`Exclusive`; otherwise no handle is issued and the state is unchanged. -/
def borrowMut : RefState → Option RefState
  | RefState.Unshared => some RefState.Exclusive
  | _ => none

end MyRefCell

namespace Ref

/-- `impl Drop for Ref`: releasing a read handle.  `none` models the
`unreachable!()` abort; the `Shared(n)` arm computes `n - 1` in `usize`
arithmetic (wrapping, hence the additive form). -/
def drop : RefState → Option RefState
  | RefState.Exclusive | RefState.Unshared => none
  | RefState.Shared 1 => some RefState.Unshared
  | RefState.Shared n => some (RefState.Shared ((n + (USIZE - 1)) % USIZE))

end Ref

namespace RefMut

/-- `impl Drop for RefMut`: releasing the write handle.  `none` models the
`unreachable!()` abort. -/
def drop : RefState → Option RefState
  | RefState.Shared _ | RefState.Unshared => none
  | RefState.Exclusive => some RefState.Unshared

end RefMut

example : runCell (MyCell.new 10) [CellOp.get, CellOp.set 42, CellOp.get] = 42 := by decide
example : MyRefCell.borrow (RefState.Shared 2) = some (RefState.Shared 3) := by decide
example : Ref.drop (RefState.Shared 2) = some (RefState.Shared 1) := by decide
example : Ref.drop (RefState.Shared 1) = some RefState.Unshared := by decide

/-! ### RefCell client-interaction traces

A client of one `MyRefCell` performs a sequence of borrow attempts and
handle releases.  The state records the cell's `RefState` together with the
(ghost) numbers of currently-live read and write handles. -/

/-- One interaction of a client with a `MyRefCell`: a `borrow` attempt, a
`borrow_mut` attempt, or the drop of a handle the client holds. -/
inductive BorrowEvent where
  | borrow
  | borrowMut
  | dropRead
  | dropWrite
deriving DecidableEq

/-- A `MyRefCell`'s borrow state plus the ghost counts of live handles. -/
structure CellSt where
  state : RefState
  reads : Nat
  writes : Nat
deriving DecidableEq, Repr

/-- One trace step.  A failed borrow attempt leaves the cell unchanged (the
source returns `None` without touching the state).  Dropping a handle the
client does not hold is not a possible trace (`none`), and a drop that hits
the `unreachable!()` arm of the `Drop` impls is an abort (`none`). -/
def stepRC (s : CellSt) : BorrowEvent → Option CellSt
  | BorrowEvent.borrow =>
    match MyRefCell.borrow s.state with
    | some st => some ⟨st, s.reads + 1, s.writes⟩
    | none => some s
  | BorrowEvent.borrowMut =>
    match MyRefCell.borrowMut s.state with
    | some st => some ⟨st, s.reads, s.writes + 1⟩
    | none => some s
  | BorrowEvent.dropRead =>
    if s.reads = 0 then none
    else (Ref.drop s.state).map (fun st => ⟨st, s.reads - 1, s.writes⟩)
  | BorrowEvent.dropWrite =>
    if s.writes = 0 then none
    else (RefMut.drop s.state).map (fun st => ⟨st, s.reads, s.writes - 1⟩)

/-- Run a trace of borrow events from a given cell state. -/
def runRC : CellSt → List BorrowEvent → Option CellSt
  | s, [] => some s
  | s, e :: rest =>
    match stepRC s e with
    | some s2 => runRC s2 rest
    | none => none

/-- A `MyRefCell::new` cell: `Unshared`, no live handles. -/
def CellSt.init : CellSt := ⟨RefState.Unshared, 0, 0⟩

/-- The borrow-tracking invariant of `MyRefCell`: the `RefState` mirrors the
live handles exactly. -/
def InvRC (s : CellSt) : Prop :=
  (s.state = RefState.Unshared → s.reads = 0 ∧ s.writes = 0)
  ∧ (∀ n, s.state = RefState.Shared n → s.reads = n ∧ s.writes = 0 ∧ 1 ≤ n)
  ∧ (s.state = RefState.Exclusive → s.reads = 0 ∧ s.writes = 1)

lemma stepRC_inv (s s2 : CellSt) (e : BorrowEvent) (hinv : InvRC s)
    (hov : s.reads + 1 < USIZE) (h : stepRC s e = some s2) :
    InvRC s2 ∧ s2.reads ≤ s.reads + 1 := by
  obtain ⟨hU, hS, hE⟩ := hinv
  cases e with
  | borrow =>
    cases hst : s.state with
    | Unshared =>
      obtain ⟨hr, hw⟩ := hU hst
      simp only [stepRC, MyRefCell.borrow, hst] at h
      obtain rfl := Option.some_injective _ h
      refine ⟨⟨by simp, ?_, by simp⟩, Nat.le_refl _⟩
      intro n hn
      simp only [RefState.Shared.injEq] at hn
      simp [← hn, hr, hw]
    | Shared n =>
      obtain ⟨hr, hw, hn1⟩ := hS n hst
      simp only [stepRC, MyRefCell.borrow, hst] at h
      obtain rfl := Option.some_injective _ h
      have hmod : (n + 1) % USIZE = n + 1 := Nat.mod_eq_of_lt (by omega)
      refine ⟨⟨by simp, ?_, by simp⟩, Nat.le_refl _⟩
      intro m hm
      simp only [RefState.Shared.injEq, hmod] at hm
      simp only [← hm]
      omega
    | Exclusive =>
      simp only [stepRC, MyRefCell.borrow, hst] at h
      obtain rfl := Option.some_injective _ h
      exact ⟨⟨hU, hS, hE⟩, by omega⟩
  | borrowMut =>
    cases hst : s.state with
    | Unshared =>
      obtain ⟨hr, hw⟩ := hU hst
      simp only [stepRC, MyRefCell.borrowMut, hst] at h
      obtain rfl := Option.some_injective _ h
      exact ⟨⟨by simp, by simp, by simp [hr, hw]⟩, Nat.le_succ _⟩
    | Shared n =>
      simp only [stepRC, MyRefCell.borrowMut, hst] at h
      obtain rfl := Option.some_injective _ h
      exact ⟨⟨hU, hS, hE⟩, by omega⟩
    | Exclusive =>
      simp only [stepRC, MyRefCell.borrowMut, hst] at h
      obtain rfl := Option.some_injective _ h
      exact ⟨⟨hU, hS, hE⟩, by omega⟩
  | dropRead =>
    simp only [stepRC] at h
    by_cases hr0 : s.reads = 0
    · simp [hr0] at h
    · simp only [hr0, if_false, Option.map_eq_some'] at h
      obtain ⟨st, hdrop, rfl⟩ := h
      cases hst : s.state with
      | Unshared => exact absurd (hU hst).1 hr0
      | Exclusive => exact absurd (hE hst).1 hr0
      | Shared n =>
        obtain ⟨hr, hw, hn1⟩ := hS n hst
        rcases Nat.lt_or_ge n 2 with hn2 | hn2
        · have hn : n = 1 := by omega
          subst hn
          rw [hst] at hdrop
          simp only [Ref.drop] at hdrop
          obtain rfl := Option.some_injective _ hdrop
          refine ⟨⟨fun _ => by simp [hr, hw], ?_, by simp⟩, le_trans (Nat.sub_le _ _) (Nat.le_succ _)⟩
          intro m hm
          simp at hm
        · rw [hst] at hdrop
          have hne1 : n ≠ 1 := by omega
          rcases n with _ | _ | m
          · omega
          · omega
          · simp only [Ref.drop] at hdrop
            obtain rfl := Option.some_injective _ hdrop
            have hmod : (m + 2 + (USIZE - 1)) % USIZE = m + 1 := by
              have hlt : m + 2 < USIZE := by omega
              have : m + 2 + (USIZE - 1) = (m + 1) + USIZE := by
                have : 1 ≤ USIZE := by norm_num [USIZE]
                omega
              rw [this, Nat.add_mod_right]
              exact Nat.mod_eq_of_lt (by omega)
            refine ⟨⟨by simp, ?_, by simp⟩, le_trans (Nat.sub_le _ _) (Nat.le_succ _)⟩
            intro k hk
            simp only [RefState.Shared.injEq, hmod] at hk
            simp only [← hk]
            omega
  | dropWrite =>
    simp only [stepRC] at h
    by_cases hw0 : s.writes = 0
    · simp [hw0] at h
    · simp only [hw0, if_false, Option.map_eq_some'] at h
      obtain ⟨st, hdrop, rfl⟩ := h
      cases hst : s.state with
      | Unshared => exact absurd (hU hst).2 hw0
      | Shared n => exact absurd (hS n hst).2.1 hw0
      | Exclusive =>
        obtain ⟨hr, hw⟩ := hE hst
        rw [hst] at hdrop
        simp only [RefMut.drop] at hdrop
        obtain rfl := Option.some_injective _ hdrop
        refine ⟨⟨fun _ => by simp [hr, hw], ?_, by simp⟩, Nat.le_succ _⟩
        intro m hm
        simp at hm

lemma runRC_inv (events : List BorrowEvent) : ∀ (s s2 : CellSt),
    InvRC s → s.reads + events.length < USIZE →
    runRC s events = some s2 → InvRC s2 := by
  induction events with
  | nil =>
    intro s s2 hinv _ hrun
    simp only [runRC] at hrun
    obtain rfl := Option.some_injective _ hrun
    exact hinv
  | cons e rest ih =>
    intro s s2 hinv hlen hrun
    simp only [runRC] at hrun
    cases hstep : stepRC s e with
    | none => rw [hstep] at hrun; exact absurd hrun (by simp)
    | some s1 =>
      rw [hstep] at hrun
      obtain ⟨hinv1, hle⟩ := stepRC_inv s s1 e hinv (by simp at hlen; omega) hstep
      exact ih s1 s2 hinv1 (by simp at hlen ⊢; omega) hrun

lemma InvRC_init : InvRC CellSt.init := by
  refine ⟨fun _ => ⟨rfl, rfl⟩, ?_, ?_⟩ <;> intro h <;> simp [CellSt.init] at *

lemma shared_drop_mod (n : Nat) (h1 : 1 < n) (h2 : n < USIZE) :
    (n + (USIZE - 1)) % USIZE = n - 1 := by
  have hU1 : 1 ≤ USIZE := by norm_num [USIZE]
  have heq : n + (USIZE - 1) = (n - 1) + USIZE := by omega
  rw [heq, Nat.add_mod_right]
  exact Nat.mod_eq_of_lt (by omega)

/-- C2: along every interleaving of borrow acquisitions and releases on one
`MyRefCell` (of length below `usize` overflow), at any instant either zero
or more read handles are live with zero write handles, or exactly one write
handle is live with zero read handles; whenever the state is `Shared n`, `n`
equals the number of currently-live read handles; and `Exclusive` never
coexists with a live read handle. -/
theorem refcell_state_invariant (events : List BorrowEvent) (s2 : CellSt)
    (hlen : events.length < USIZE)
    (hrun : runRC CellSt.init events = some s2) :
    (s2.writes = 0 ∨ (s2.writes = 1 ∧ s2.reads = 0))
    ∧ (∀ n, s2.state = RefState.Shared n → n = s2.reads)
    ∧ (s2.state = RefState.Exclusive → s2.reads = 0) := by
  have hinv := runRC_inv events CellSt.init s2 InvRC_init
    (by simpa [CellSt.init] using hlen) hrun
  obtain ⟨hU, hS, hE⟩ := hinv
  refine ⟨?_, fun n hn => (hS n hn).1.symm, fun hx => (hE hx).1⟩
  cases hst : s2.state with
  | Unshared => exact Or.inl (hU hst).2
  | Shared n => exact Or.inl (hS n hst).2.1
  | Exclusive => exact Or.inr ⟨(hE hst).2, (hE hst).1⟩

/-- Final state of the trace `[borrow, borrow, dropRead]`. -/
def wCS2 : CellSt := ⟨RefState.Shared 1, 1, 0⟩

theorem refcell_state_invariant_witness :
    wCS2.writes = 0 ∨ (wCS2.writes = 1 ∧ wCS2.reads = 0) :=
  (refcell_state_invariant [BorrowEvent.borrow, BorrowEvent.borrow, BorrowEvent.dropRead]
    wCS2 (by norm_num [USIZE]) (by decide)).1

/-- C3: `borrow` issues a read handle and transitions `Unshared` to
`Shared 1` and `Shared n` to `Shared (n + 1)` (below `usize` overflow), and
it returns no handle exactly when the state is `Exclusive`, in which case
the state is left unchanged. -/
theorem refcell_borrow_transitions :
    MyRefCell.borrow RefState.Unshared = some (RefState.Shared 1)
    ∧ (∀ n, n + 1 < USIZE →
        MyRefCell.borrow (RefState.Shared n) = some (RefState.Shared (n + 1)))
    ∧ (∀ st, MyRefCell.borrow st = none ↔ st = RefState.Exclusive)
    ∧ (∀ s, s.state = RefState.Exclusive → stepRC s BorrowEvent.borrow = some s) := by
  refine ⟨rfl, ?_, ?_, ?_⟩
  · intro n hlt
    simp [MyRefCell.borrow, Nat.mod_eq_of_lt hlt]
  · intro st
    cases st <;> simp [MyRefCell.borrow]
  · intro s hs
    simp [stepRC, MyRefCell.borrow, hs]

theorem refcell_borrow_transitions_witness :
    MyRefCell.borrow (RefState.Shared 5) = some (RefState.Shared 6) :=
  refcell_borrow_transitions.2.1 5 (by norm_num [USIZE])

/-- C4: `borrow_mut` succeeds only from `Unshared`, transitioning to
`Exclusive`; from any other state it returns no handle and leaves the state
unchanged; and along any bounded trace from a fresh cell it fails exactly
when at least one read or write handle is live. -/
theorem refcell_borrow_mut_spec :
    MyRefCell.borrowMut RefState.Unshared = some RefState.Exclusive
    ∧ (∀ st, st ≠ RefState.Unshared → MyRefCell.borrowMut st = none)
    ∧ (∀ s, s.state ≠ RefState.Unshared → stepRC s BorrowEvent.borrowMut = some s)
    ∧ (∀ events s2, events.length < USIZE → runRC CellSt.init events = some s2 →
        (MyRefCell.borrowMut s2.state = none ↔ 1 ≤ s2.reads + s2.writes)) := by
  refine ⟨rfl, ?_, ?_, ?_⟩
  · intro st hst
    cases st with
    | Unshared => exact absurd rfl hst
    | Shared n => rfl
    | Exclusive => rfl
  · intro s hs
    cases hst : s.state with
    | Unshared => exact absurd hst hs
    | Shared n => simp [stepRC, MyRefCell.borrowMut, hst]
    | Exclusive => simp [stepRC, MyRefCell.borrowMut, hst]
  · intro events s2 hlen hrun
    have hinv := runRC_inv events CellSt.init s2 InvRC_init
      (by simpa [CellSt.init] using hlen) hrun
    obtain ⟨hU, hS, hE⟩ := hinv
    cases hst : s2.state with
    | Unshared =>
      obtain ⟨hr, hw⟩ := hU hst
      simp [MyRefCell.borrowMut, hr, hw]
    | Shared n =>
      obtain ⟨hr, hw, hn⟩ := hS n hst
      exact ⟨fun _ => by omega, fun _ => rfl⟩
    | Exclusive =>
      obtain ⟨hr, hw⟩ := hE hst
      exact ⟨fun _ => by omega, fun _ => rfl⟩

theorem refcell_borrow_mut_spec_witness :
    MyRefCell.borrowMut wCS2.state = none ↔ 1 ≤ wCS2.reads + wCS2.writes :=
  refcell_borrow_mut_spec.2.2.2 [BorrowEvent.borrow, BorrowEvent.borrow, BorrowEvent.dropRead]
    wCS2 (by norm_num [USIZE]) (by decide)

/-- C5: releasing a read handle transitions `Shared 1` to `Unshared` and
`Shared n` (for `1 < n`, below `usize` overflow) to `Shared (n - 1)`;
releasing the write handle transitions `Exclusive` to `Unshared`; any
release in a state inconsistent with the handle kind aborts
(`unreachable!()`, modelled as `none`). -/
theorem refcell_release_transitions :
    Ref.drop (RefState.Shared 1) = some RefState.Unshared
    ∧ (∀ n, 1 < n → n < USIZE →
        Ref.drop (RefState.Shared n) = some (RefState.Shared (n - 1)))
    ∧ RefMut.drop RefState.Exclusive = some RefState.Unshared
    ∧ Ref.drop RefState.Exclusive = none
    ∧ Ref.drop RefState.Unshared = none
    ∧ (∀ n, RefMut.drop (RefState.Shared n) = none)
    ∧ RefMut.drop RefState.Unshared = none := by
  refine ⟨rfl, ?_, rfl, rfl, rfl, fun n => rfl, rfl⟩
  intro n h1 h2
  rcases n with _ | _ | m
  · omega
  · omega
  · have heq : Ref.drop (RefState.Shared (m + 2))
        = some (RefState.Shared ((m + 2 + (USIZE - 1)) % USIZE)) := rfl
    rw [heq, shared_drop_mod (m + 2) h1 h2]

theorem refcell_release_transitions_witness :
    Ref.drop (RefState.Shared 3) = some (RefState.Shared 2) :=
  refcell_release_transitions.2.1 3 (by norm_num) (by norm_num [USIZE])

/-- C10: the `Shared` count update in `borrow` is unchecked `usize`
arithmetic: for `n` below `usize::MAX` the new state is `Shared (n + 1)`,
and at `n = usize::MAX` the addition wraps to `Shared 0`, which differs
from the state that would faithfully track the `usize::MAX + 1` live read
handles. -/
theorem refcell_shared_count_overflow :
    (∀ n, n + 1 < USIZE →
        MyRefCell.borrow (RefState.Shared n) = some (RefState.Shared (n + 1)))
    ∧ MyRefCell.borrow (RefState.Shared (USIZE - 1)) = some (RefState.Shared 0)
    ∧ RefState.Shared 0 ≠ RefState.Shared ((USIZE - 1) + 1) := by
  refine ⟨?_, by decide, by decide⟩
  intro n hlt
  simp [MyRefCell.borrow, Nat.mod_eq_of_lt hlt]

theorem refcell_shared_count_overflow_witness :
    MyRefCell.borrow (RefState.Shared 7) = some (RefState.Shared 8) :=
  refcell_shared_count_overflow.1 7 (by norm_num [USIZE])

/-- C6: for every finite sequence of `set`/`get` operations on a `MyCell`,
`get` returns the value passed to the most recent `set` (or the constructor
value if no `set` has occurred); and `set` always succeeds, its only
observable effect being the stored value changing. -/
theorem cell_get_returns_last_set {T : Type} :
    (∀ (init : T) (ops : List (CellOp T)),
        MyCell.get (runCell (MyCell.new init) ops) = (lastSet ops).getD init)
    ∧ (∀ (c v : T), MyCell.get (MyCell.set c v) = v) := by
  constructor
  · intro init ops
    induction ops generalizing init with
    | nil => rfl
    | cons op rest ih =>
      cases op with
      | set v =>
        simpa [runCell, lastSet, MyCell.new, MyCell.set] using ih v
      | get =>
        simpa [runCell, lastSet] using ih init
  · intro c v
    rfl

/-! ## `MyRc` (src/pointers/src/rc.rs)

The heap `RcInner` block holds the value and the `ref_count` cell.  All
`MyRc` handles point at one shared block, so the functional model carries
the block state; `clone` bumps the count (in `usize` arithmetic) and hands
out another handle to the same block, `deref` reads the value. -/

/-- The shared control block `RcInner<T>`. -/
structure RcInner (T : Type) where
  value : T
  ref_count : Nat
deriving DecidableEq, Repr

namespace MyRc

/-- `MyRc::new(value)`: allocate a block with `ref_count = 1`. -/
def new {T : Type} (value : T) : RcInner T := ⟨value, 1⟩

/-- `impl Clone for MyRc`: increment the shared block's count (in `usize`
arithmetic); the returned handle points at the same block, so the value is
untouched. -/
def clone {T : Type} (inner : RcInner T) : RcInner T :=
  ⟨inner.value, (inner.ref_count + 1) % USIZE⟩

/-- `impl Deref for MyRc`: read-only view of the block's value. -/
def deref {T : Type} (inner : RcInner T) : T := inner.value

end MyRc

/-- C7: round-trip for `MyRc`: dereferencing after `new` followed by any
number of `clone`s returns the constructed value; `clone` never duplicates
the underlying value — it only increments the count of the same block. -/
theorem rc_clone_roundtrip {T : Type} :
    (∀ (v : T) (k : Nat), MyRc.deref (MyRc.clone^[k] (MyRc.new v)) = v)
    ∧ (∀ (b : RcInner T),
        (MyRc.clone b).value = b.value
        ∧ (MyRc.clone b).ref_count = (b.ref_count + 1) % USIZE) := by
  constructor
  · intro v k
    have hval : ∀ (b : RcInner T) (k : Nat), (MyRc.clone^[k] b).value = b.value := by
      intro b k
      induction k generalizing b with
      | zero => rfl
      | succ m ih =>
        rw [Function.iterate_succ_apply]
        rw [ih (MyRc.clone b)]
        rfl
    exact hval (MyRc.new v) k
  · intro b
    exact ⟨rfl, rfl⟩

example : MyRc.deref (MyRc.clone^[3] (MyRc.new 42)) = 42 := by decide

/-! ### Rc handle-lifecycle traces (for the count/deallocation invariant)

A trace acts on the shared block through the set of live handles: `clone`
duplicates one of the live handles (`Clone for MyRc`), `drop` releases one
of them (`Drop for MyRc`).  `handles` is the ghost number of live handles,
`block` the control block (`none` once deallocated by `Box::from_raw`), and
`deallocs` the ghost number of deallocations performed. -/

/-- One lifecycle event on the handles of a single `MyRc` block. -/
inductive RcEvent where
  | clone
  | drop
deriving DecidableEq

/-- Ghost-instrumented lifecycle state of one `MyRc` control block. -/
structure RcSt where
  handles : Nat
  block : Option Nat
  deallocs : Nat
deriving DecidableEq, Repr

/-- The state right after `MyRc::new`: one handle, `ref_count = 1`. -/
def RcSt.init : RcSt := ⟨1, some 1, 0⟩

/-- One lifecycle step.  Both events require a live handle to act through;
`clone` executes `ref_count.set(ref_count.get() + 1)` (in `usize`
arithmetic), `drop` deallocates when `ref_count.get() == 1` and otherwise
executes `ref_count.set(ref_count.get() - 1)` (wrapping, hence the additive
form). -/
def rcStep (s : RcSt) : RcEvent → Option RcSt
  | RcEvent.clone =>
    match s.block, s.handles with
    | some c, h + 1 => some ⟨h + 2, some ((c + 1) % USIZE), s.deallocs⟩
    | _, _ => none
  | RcEvent.drop =>
    match s.block, s.handles with
    | some c, h + 1 =>
      if c = 1 then some ⟨h, none, s.deallocs + 1⟩
      else some ⟨h, some ((c + (USIZE - 1)) % USIZE), s.deallocs⟩
    | _, _ => none

/-- Run a lifecycle trace from a given state. -/
def runRc : RcSt → List RcEvent → Option RcSt
  | s, [] => some s
  | s, e :: rest =>
    match rcStep s e with
    | some s2 => runRc s2 rest
    | none => none

/-- The lifecycle invariant of the `MyRc` control block: while the block is
live its `ref_count` equals the number of live handles and nothing has been
deallocated; once it is gone, no handle survives and exactly one
deallocation has happened. -/
def InvRc (s : RcSt) : Prop :=
  (∀ c, s.block = some c → c = s.handles ∧ 1 ≤ s.handles ∧ s.deallocs = 0)
  ∧ (s.block = none → s.handles = 0 ∧ s.deallocs = 1)

lemma rcStep_inv (s s2 : RcSt) (e : RcEvent) (hinv : InvRc s)
    (hov : s.handles + 1 < USIZE) (h : rcStep s e = some s2) :
    InvRc s2 ∧ s2.handles ≤ s.handles + 1 := by
  obtain ⟨hlive, hdead⟩ := hinv
  cases e with
  | clone =>
    cases hb : s.block with
    | none =>
      rw [rcStep] at h
      rw [hb] at h
      simp at h
    | some c =>
      obtain ⟨hc, hh, hd⟩ := hlive c hb
      rcases hhs : s.handles with _ | hminus
      · omega
      · rw [rcStep] at h
        rw [hb, hhs] at h
        obtain rfl := Option.some_injective _ h
        have hmod : (c + 1) % USIZE = c + 1 := Nat.mod_eq_of_lt (by omega)
        refine ⟨⟨?_, by simp⟩, Nat.le_refl _⟩
        intro c2 hc2
        simp only [Option.some.injEq, hmod] at hc2
        dsimp only
        exact ⟨by omega, by omega, hd⟩
  | drop =>
    cases hb : s.block with
    | none =>
      rw [rcStep] at h
      rw [hb] at h
      simp at h
    | some c =>
      obtain ⟨hc, hh, hd⟩ := hlive c hb
      rcases hhs : s.handles with _ | hminus
      · omega
      · rw [rcStep] at h
        rw [hb, hhs] at h
        rcases c with _ | _ | cm
        · omega
        · obtain rfl := Option.some_injective _ h
          refine ⟨⟨by simp, fun _ => ⟨by dsimp only; omega, by dsimp only; omega⟩⟩, ?_⟩
          dsimp only
          omega
        · obtain rfl := Option.some_injective _ h
          have hmod : (cm + 2 + (USIZE - 1)) % USIZE = cm + 1 :=
            shared_drop_mod (cm + 2) (by omega) (by omega)
          refine ⟨⟨?_, by simp⟩, ?_⟩
          · intro c2 hc2
            simp only [Option.some.injEq, hmod] at hc2
            dsimp only
            exact ⟨by omega, by omega, hd⟩
          · dsimp only
            omega

lemma runRc_inv (events : List RcEvent) : ∀ (s s2 : RcSt),
    InvRc s → s.handles + events.length < USIZE →
    runRc s events = some s2 → InvRc s2 := by
  induction events with
  | nil =>
    intro s s2 hinv _ hrun
    simp only [runRc] at hrun
    obtain rfl := Option.some_injective _ hrun
    exact hinv
  | cons e rest ih =>
    intro s s2 hinv hlen hrun
    simp only [runRc] at hrun
    cases hstep : rcStep s e with
    | none => rw [hstep] at hrun; exact absurd hrun (by simp)
    | some s1 =>
      rw [hstep] at hrun
      obtain ⟨hinv1, hle⟩ := rcStep_inv s s1 e hinv (by simp at hlen; omega) hstep
      exact ih s1 s2 hinv1 (by simp at hlen ⊢; omega) hrun

/-- C1: along every lifecycle trace of one `MyRc` block (clones and drops
in any order, of length below `usize` overflow), the stored `ref_count`
equals the number of live handles as long as the block is live, the block
is deallocated exactly once, and that single deallocation happens at the
drop of the last surviving handle (it coincides with the handle count
reaching zero). -/
theorem rc_count_tracks_handles (events : List RcEvent) (s2 : RcSt)
    (hlen : 1 + events.length < USIZE)
    (hrun : runRc RcSt.init events = some s2) :
    (∀ c, s2.block = some c → c = s2.handles ∧ s2.deallocs = 0)
    ∧ (s2.block = none → s2.handles = 0 ∧ s2.deallocs = 1)
    ∧ (s2.deallocs ≤ 1) := by
  have hinit : InvRc RcSt.init := by
    constructor
    · intro c hc
      simp only [RcSt.init, Option.some.injEq] at hc
      simp [RcSt.init, ← hc]
    · intro hc
      simp [RcSt.init] at hc
  have hinv := runRc_inv events RcSt.init s2 hinit (by simpa [RcSt.init] using hlen) hrun
  obtain ⟨hlive, hdead⟩ := hinv
  refine ⟨fun c hc => ⟨(hlive c hc).1, (hlive c hc).2.2⟩, hdead, ?_⟩
  cases hb : s2.block with
  | none => simp [(hdead hb).2]
  | some c => simp [(hlive c hb).2.2]

/-- Final state of the trace `new; clone; clone; drop; drop; drop`. -/
def wRc : RcSt := ⟨0, none, 1⟩

theorem rc_count_tracks_handles_witness : wRc.handles = 0 ∧ wRc.deallocs = 1 :=
  (rc_count_tracks_handles
    [RcEvent.clone, RcEvent.clone, RcEvent.drop, RcEvent.drop, RcEvent.drop]
    wRc (by norm_num [USIZE]) (by decide)).2.1 rfl

/-! ## `MyCounter` (src/send-and-sync/src/sync.rs)

`MyCounter` wraps an `i32` behind a `Mutex`.  `Mutex::lock` returns
`Err(PoisonError)` when a prior panic occurred while the lock was held, and
both methods call `.unwrap()` on that result: on `Err` this panics, which
propagates to the caller.  A propagating panic is modelled as
`Except.error`; a completed call as `Except.ok`. -/

/-- A `MyCounter`: the guarded `i32` plus the mutex's poison flag. -/
structure MyCounter where
  poisoned : Bool
  count : Int
deriving DecidableEq, Repr

namespace MyCounter

/-- `MyCounter::new()`: count `0`, lock not poisoned. -/
def new : MyCounter := ⟨false, 0⟩

/-- `self.count.lock()`: yields the guarded value, or the poison error. -/
def lock (c : MyCounter) : Except Unit Int :=
  if c.poisoned then Except.error () else Except.ok c.count

/-- `MyCounter::increment`: `self.count.lock().unwrap()` then
`*count += 1` (wrapping `i32` addition); `.unwrap()` on a poisoned lock
panics, and the panic propagates to the caller. -/
def increment (c : MyCounter) : Except Unit MyCounter :=
  match c.lock with
  | Except.error e => Except.error e
  | Except.ok v => Except.ok ⟨c.poisoned, wrap32 (v + 1)⟩

/-- `MyCounter::get`: `self.count.lock().unwrap()` then `*count`. -/
def get (c : MyCounter) : Except Unit Int :=
  match c.lock with
  | Except.error e => Except.error e
  | Except.ok v => Except.ok v

end MyCounter

/-- C9: when the `MyCounter`'s lock is poisoned, `increment` and `get`
both end in an explicit failure (the propagating `unwrap` panic) and never
in a silently successful result; when it is not poisoned, both complete
normally. -/
theorem counter_poison_surfaced :
    (∀ c : MyCounter, c.poisoned = true →
        c.increment = Except.error () ∧ c.get = Except.error ())
    ∧ (∀ c : MyCounter, c.poisoned = false →
        c.increment = Except.ok ⟨false, wrap32 (c.count + 1)⟩
        ∧ c.get = Except.ok c.count) := by
  constructor
  · intro c hp
    simp [MyCounter.increment, MyCounter.get, MyCounter.lock, hp]
  · intro c hp
    simp [MyCounter.increment, MyCounter.get, MyCounter.lock, hp]

theorem counter_poison_surfaced_witness :
    (MyCounter.mk true 5).increment = Except.error ()
    ∧ (MyCounter.mk true 5).get = Except.error () :=
  counter_poison_surfaced.1 (MyCounter.mk true 5) rfl

/-! ### Concurrent increments under the mutex

`N` threads each run `increment` once: acquire the lock, read the guarded
`i32` through the `MutexGuard`, write back the incremented value, release
the lock on scope exit.  Program counters: `0` = not started, `1` = lock
held, `2` = value read into the thread's temporary, `3` = value written
back, `4` = finished (lock released).  The mutex admits at most one holder,
and only the holder may touch the guarded value. -/

/-- Global state of `n` threads incrementing one `MyCounter`. -/
structure CounterSt (n : Nat) where
  count : Int
  lock : Option (Fin n)
  pc : Fin n → Nat
  tmp : Fin n → Int

/-- Interleaving semantics: any thread may take its next step, but lock
acquisition requires the mutex to be free, and the guarded value is only
read or written by the thread holding the lock. -/
inductive CStep (n : Nat) : CounterSt n → CounterSt n → Prop where
  | acquire (s : CounterSt n) (t : Fin n) :
      s.pc t = 0 → s.lock = none →
      CStep n s { s with lock := some t, pc := Function.update s.pc t 1 }
  | readGuard (s : CounterSt n) (t : Fin n) :
      s.pc t = 1 → s.lock = some t →
      CStep n s { s with tmp := Function.update s.tmp t s.count,
                         pc := Function.update s.pc t 2 }
  | writeGuard (s : CounterSt n) (t : Fin n) :
      s.pc t = 2 → s.lock = some t →
      CStep n s { s with count := wrap32 (s.tmp t + 1),
                         pc := Function.update s.pc t 3 }
  | release (s : CounterSt n) (t : Fin n) :
      s.pc t = 3 → s.lock = some t →
      CStep n s { s with lock := none, pc := Function.update s.pc t 4 }

/-- The initial state: counter at `init`, lock free, no thread started. -/
def CounterSt.start (n : Nat) (init : Int) : CounterSt n :=
  ⟨init, none, fun _ => 0, fun _ => 0⟩

/-- The number of threads whose increment has already hit the counter. -/
def doneCount {n : Nat} (pc : Fin n → Nat) : Nat :=
  (Finset.univ.filter (fun t => 3 ≤ pc t)).card

lemma doneCount_update_same {n : Nat} (pc : Fin n → Nat) (t : Fin n) (v : Nat)
    (h : (3 ≤ v) ↔ (3 ≤ pc t)) :
    doneCount (Function.update pc t v) = doneCount pc := by
  unfold doneCount
  congr 1
  ext x
  simp only [Finset.mem_filter, Finset.mem_univ, true_and]
  rcases eq_or_ne x t with rfl | hx
  · rw [Function.update_same]
    exact h
  · rw [Function.update_noteq hx]

lemma doneCount_update_done {n : Nat} (pc : Fin n → Nat) (t : Fin n)
    (h : pc t = 2) :
    doneCount (Function.update pc t 3) = doneCount pc + 1 := by
  unfold doneCount
  have hset : Finset.univ.filter (fun x => 3 ≤ Function.update pc t 3 x)
      = insert t (Finset.univ.filter (fun x => 3 ≤ pc x)) := by
    ext x
    simp only [Finset.mem_filter, Finset.mem_univ, true_and, Finset.mem_insert]
    rcases eq_or_ne x t with rfl | hx
    · rw [Function.update_same]
      simp
    · rw [Function.update_noteq hx]
      simp [hx]
  rw [hset, Finset.card_insert_of_not_mem]
  simp [h]

lemma doneCount_all_done {n : Nat} (pc : Fin n → Nat)
    (h : ∀ t, pc t = 4) : doneCount pc = n := by
  unfold doneCount
  have hset : Finset.univ.filter (fun t => 3 ≤ pc t) = (Finset.univ : Finset (Fin n)) := by
    ext x
    simp [h x]
  rw [hset, Finset.card_univ, Fintype.card_fin]

/-- The serialization invariant: the counter records exactly the finished
increments; only the lock holder can be mid-critical-section; and a holder
that has read the guarded value holds an up-to-date copy. -/
def CInv {n : Nat} (init : Int) (s : CounterSt n) : Prop :=
  s.count = wrap32 (init + doneCount s.pc)
  ∧ (∀ t, s.lock ≠ some t → s.pc t = 0 ∨ s.pc t = 4)
  ∧ (∀ t, s.pc t = 2 → s.tmp t = s.count)

lemma CStep_inv {n : Nat} (init : Int) (s s2 : CounterSt n)
    (h : CStep n s s2) (hinv : CInv init s) : CInv init s2 := by
  obtain ⟨hcount, hlock, htmp⟩ := hinv
  cases h with
  | acquire t hpc hfree =>
    refine ⟨?_, ?_, ?_⟩ <;> dsimp only
    · rw [hcount, doneCount_update_same s.pc t 1 (by omega)]
    · intro t2 hl2
      rcases eq_or_ne t2 t with rfl | hne
      · simp at hl2
      · rw [Function.update_noteq hne]
        exact hlock t2 (by rw [hfree]; simp)
    · intro t2 hpc2
      rcases eq_or_ne t2 t with rfl | hne
      · rw [Function.update_same] at hpc2
        omega
      · rw [Function.update_noteq hne] at hpc2
        have := hlock t2 (by rw [hfree]; simp)
        omega
  | readGuard t hpc hheld =>
    refine ⟨?_, ?_, ?_⟩ <;> dsimp only
    · rw [hcount, doneCount_update_same s.pc t 2 (by omega)]
    · intro t2 hl2
      rcases eq_or_ne t2 t with rfl | hne
      · exact absurd hheld hl2
      · rw [Function.update_noteq hne]
        exact hlock t2 hl2
    · intro t2 hpc2
      rcases eq_or_ne t2 t with rfl | hne
      · rw [Function.update_same]
      · rw [Function.update_noteq hne] at hpc2
        have := hlock t2 (by rw [hheld]; simp [Ne.symm hne])
        rw [Function.update_noteq hne]
        omega
  | writeGuard t hpc hheld =>
    refine ⟨?_, ?_, ?_⟩ <;> dsimp only
    · rw [htmp t hpc, hcount, doneCount_update_done s.pc t hpc, wrap32_wrap_add]
      congr 1
      push_cast
      ring
    · intro t2 hl2
      rcases eq_or_ne t2 t with rfl | hne
      · exact absurd hheld hl2
      · rw [Function.update_noteq hne]
        exact hlock t2 hl2
    · intro t2 hpc2
      rcases eq_or_ne t2 t with rfl | hne
      · rw [Function.update_same] at hpc2
        omega
      · rw [Function.update_noteq hne] at hpc2
        have := hlock t2 (by rw [hheld]; simp [Ne.symm hne])
        omega
  | release t hpc hheld =>
    refine ⟨?_, ?_, ?_⟩ <;> dsimp only
    · rw [hcount, doneCount_update_same s.pc t 4 (by omega)]
    · intro t2 _
      rcases eq_or_ne t2 t with rfl | hne
      · rw [Function.update_same]
        omega
      · rw [Function.update_noteq hne]
        exact hlock t2 (by rw [hheld]; simp [Ne.symm hne])
    · intro t2 hpc2
      rcases eq_or_ne t2 t with rfl | hne
      · rw [Function.update_same] at hpc2
        omega
      · rw [Function.update_noteq hne] at hpc2
        have := hlock t2 (by rw [hheld]; simp [Ne.symm hne])
        omega

lemma reachable_inv {n : Nat} (init : Int) (s s2 : CounterSt n)
    (h : Relation.ReflTransGen (CStep n) s s2) (hinv : CInv init s) :
    CInv init s2 := by
  induction h with
  | refl => exact hinv
  | tail _ hbc ih => exact CStep_inv init _ _ hbc ih

/-- C8: for the mutex-guarded counter, any complete interleaving of `n`
threads that each perform one `increment` under the lock ends with the
counter at `initial value + n` (given the sum stays in `i32` range): the
increments are serialized and none is lost. -/
theorem counter_serialized_increments (n : Nat) (init : Int) (s : CounterSt n)
    (hlo : -(2 ^ 31) ≤ init) (hhi : init + n ≤ 2 ^ 31 - 1)
    (hreach : Relation.ReflTransGen (CStep n) (CounterSt.start n init) s)
    (hdone : ∀ t, s.pc t = 4) :
    s.count = init + n := by
  have hinit : CInv init (CounterSt.start n init) := by
    refine ⟨?_, fun t _ => Or.inl rfl, fun t h => by simp [CounterSt.start] at h⟩
    show init = wrap32 (init + doneCount (fun _ : Fin n => 0))
    have hz : doneCount (fun _ : Fin n => 0) = 0 := by
      unfold doneCount
      have : Finset.univ.filter (fun t : Fin n => 3 ≤ (0 : Nat)) = (∅ : Finset (Fin n)) := by
        ext x; simp
      rw [this, Finset.card_empty]
    have hn0 : (0 : Int) ≤ n := Int.natCast_nonneg n
    simp only [hz, Nat.cast_zero, add_zero]
    rw [wrap32_eq_self init (by omega) (by omega)]
  have hinv := reachable_inv init _ s hreach hinit
  obtain ⟨hcount, _, _⟩ := hinv
  rw [doneCount_all_done s.pc hdone] at hcount
  rw [hcount]
  exact wrap32_eq_self _ (by omega) (by omega)

/-- Concrete one-thread execution, step 0: fresh counter at `0`. -/
def wCtr0 : CounterSt 1 := CounterSt.start 1 0

/-- Step 1: thread 0 acquires the lock. -/
def wCtr1 : CounterSt 1 :=
  { wCtr0 with lock := some 0, pc := Function.update wCtr0.pc 0 1 }

/-- Step 2: thread 0 reads the guarded value. -/
def wCtr2 : CounterSt 1 :=
  { wCtr1 with tmp := Function.update wCtr1.tmp 0 wCtr1.count,
               pc := Function.update wCtr1.pc 0 2 }

/-- Step 3: thread 0 writes back the incremented value. -/
def wCtr3 : CounterSt 1 :=
  { wCtr2 with count := wrap32 (wCtr2.tmp 0 + 1),
               pc := Function.update wCtr2.pc 0 3 }

/-- Step 4: thread 0 releases the lock and finishes. -/
def wCtr4 : CounterSt 1 :=
  { wCtr3 with lock := none, pc := Function.update wCtr3.pc 0 4 }

lemma wCtr_reach : Relation.ReflTransGen (CStep 1) wCtr0 wCtr4 :=
  Relation.ReflTransGen.head (CStep.acquire wCtr0 0 rfl rfl)
    (Relation.ReflTransGen.head (CStep.readGuard wCtr1 0 rfl rfl)
      (Relation.ReflTransGen.head (CStep.writeGuard wCtr2 0 rfl rfl)
        (Relation.ReflTransGen.head (CStep.release wCtr3 0 rfl rfl)
          Relation.ReflTransGen.refl)))

theorem counter_serialized_increments_witness : wCtr4.count = 0 + (1 : Nat) :=
  counter_serialized_increments 1 0 wCtr4 (by norm_num) (by norm_num)
    wCtr_reach (by decide)
